import Mathlib

/-!
Shallow embedding of the callback-contract core of the shopping-cart /
closures practice repository, together with proofs of the spec's claims.

Stateful closures are embedded by explicit state passing: a Rust closure
with captured environment of type `σ` taking an `α` and returning a `β`
becomes a Lean function `σ → α → σ × β`; an `FnMut()` closure becomes
`σ → σ` (or `σ → σ × β` when it returns a value).  Invocation counts and
invocation order are made observable by instrumenting the state with a
counter or a trace list.
-/

/-- Instrumentation: wrap a no-argument stateful callback `σ → σ × α` so
that the state additionally counts how many times it has been invoked. -/
def countCalls0 {σ α : Type} (f : σ → σ × α) (p : Nat × σ) : (Nat × σ) × α :=
  let r := f p.2
  ((p.1 + 1, r.1), r.2)

/-- Instrumentation: wrap a one-argument stateful callback `σ → α → σ × β`
so that the state additionally counts how many times it has been invoked. -/
def countCalls1 {σ α β : Type} (f : σ → α → σ × β) (p : Nat × σ) (x : α) : (Nat × σ) × β :=
  let r := f p.2 x
  ((p.1 + 1, r.1), r.2)

/-- Instrumentation: wrap an `FnMut()`-style callback `σ → σ` so that the
state additionally counts how many times it has been invoked. -/
def countCallsUnit {σ : Type} (f : σ → σ) (p : Nat × σ) : Nat × σ :=
  (p.1 + 1, f p.2)

/-- Embedding of `String::retain` / `Vec::retain` as called and documented
in `closure_10_retain_method.rs`: visit each element exactly once in the
original order, evaluate the (stateful) predicate on it, and keep exactly
the elements for which the predicate returned `true`; the collection is
the first component of the result, the predicate's final captured state
the second. -/
def retain {α σ : Type} (f : σ → α → σ × Bool) : List α → σ → List α × σ
  | [], s => ([], s)
  | x :: xs, s =>
    let r := f s x
    let rest := retain f xs r.1
    (if r.2 then x :: rest.1 else rest.1, rest.2)

/-- Specification instrument for `retain`: the same traversal, but
recording, for every original element in evaluation order, the Boolean
the predicate returned for it at the time of evaluation. -/
def retainRun {α σ : Type} (f : σ → α → σ × Bool) : List α → σ → List (α × Bool) × σ
  | [], s => ([], s)
  | x :: xs, s =>
    let r := f s x
    let rest := retainRun f xs r.1
    ((x, r.2) :: rest.1, rest.2)

lemma retainRun_map_fst {α σ : Type} (f : σ → α → σ × Bool) :
    ∀ (xs : List α) (s : σ), (retainRun f xs s).1.map Prod.fst = xs := by
  intro xs
  induction xs with
  | nil => intro s; rfl
  | cons x xs ih => intro s; simp [retainRun, ih]

lemma retain_eq_filter_retainRun {α σ : Type} (f : σ → α → σ × Bool) :
    ∀ (xs : List α) (s : σ),
      (retain f xs s).1 = ((retainRun f xs s).1.filter Prod.snd).map Prod.fst := by
  intro xs
  induction xs with
  | nil => intro s; rfl
  | cons x xs ih =>
    intro s
    simp only [retain, retainRun, List.filter]
    by_cases h : (f s x).2
    · simp [h, ih]
    · simp [h, ih]

lemma retain_state_eq_retainRun_state {α σ : Type} (f : σ → α → σ × Bool) :
    ∀ (xs : List α) (s : σ), (retain f xs s).2 = (retainRun f xs s).2 := by
  intro xs
  induction xs with
  | nil => intro s; rfl
  | cons x xs ih => intro s; simp [retain, retainRun, ih]

lemma retain_length_partition {α σ : Type} (f : σ → α → σ × Bool) :
    ∀ (xs : List α) (s : σ),
      (retain f xs s).1.length + (retainRun f xs s).1.countP (fun e => !e.2) = xs.length := by
  intro xs
  induction xs with
  | nil => intro s; rfl
  | cons x xs ih =>
    intro s
    simp only [retain, retainRun, List.countP_cons]
    by_cases h : (f s x).2
    · simp [h]
      have := ih (f s x).1
      omega
    · simp [h]
      have := ih (f s x).1
      omega

/-- Claim C1: for every sequence and every (stateful) predicate callback,
the in-place filter `retain` evaluates the predicate once per original
element in order (the recorded run covers exactly the original sequence),
leaves exactly the sub-sequence of elements for which the predicate
returned `true` at the time of evaluation, in their original relative
order, and the length of the kept output plus the number of `false`
returns equals the length of the input. -/
theorem retain_partitions {α σ : Type} (f : σ → α → σ × Bool) (xs : List α) (s : σ) :
    (retainRun f xs s).1.map Prod.fst = xs
    ∧ (retain f xs s).1 = ((retainRun f xs s).1.filter Prod.snd).map Prod.fst
    ∧ (retain f xs s).2 = (retainRun f xs s).2
    ∧ (retain f xs s).1.length + (retainRun f xs s).1.countP (fun e => !e.2) = xs.length :=
  ⟨retainRun_map_fst f xs s, retain_eq_filter_retainRun f xs s,
   retain_state_eq_retainRun_state f xs s, retain_length_partition f xs s⟩

/-- Embedding of `SupermarketItem` from `main.rs`.  The `f64` price field
is carried as an abstract `Float`; no claim reasons about its arithmetic
beyond threading it through callbacks. -/
structure SupermarketItem where
  name : String
  price : Float

/-- Embedding of `ShoppingCart` from `main.rs`. -/
structure ShoppingCart where
  item : List SupermarketItem

/-- Embedding of the index-based `while start_index < self.item.len()`
loop inside `ShoppingCart::traverse_items` in `main.rs`: at each step the
callback receives the current element (and its captured state) and the
element is written back in place, then the index advances by one. -/
def traverseItemsLoop {σ : Type} (operation : σ → SupermarketItem → σ × SupermarketItem) :
    List SupermarketItem → Nat → σ → List SupermarketItem × σ :=
  fun items start_index s =>
    if h : start_index < items.length then
      let r := operation s (items.get ⟨start_index, h⟩)
      traverseItemsLoop operation (items.set start_index r.2) (start_index + 1) r.1
    else
      (items, s)
termination_by items start_index _ => items.length - start_index
decreasing_by simp only [List.length_set]; omega

/-- Embedding of `ShoppingCart::traverse_items` from `main.rs`: run the
index loop from index `0`, returning the mutated cart and the callback's
final captured state. -/
def ShoppingCart.traverse_items {σ : Type} (self : ShoppingCart)
    (operation : σ → SupermarketItem → σ × SupermarketItem) (s : σ) : ShoppingCart × σ :=
  let r := traverseItemsLoop operation self.item 0 s
  (⟨r.1⟩, r.2)

/-- Embedding of `ShoppingCart::checkout` from `main.rs`: the cart is
taken by value and handed, unchanged, to the consuming callback, which is
applied exactly once. -/
def ShoppingCart.checkout {σ : Type} (self : ShoppingCart)
    (operation : σ → ShoppingCart → σ) (s : σ) : σ :=
  operation s self

/-- Specification form of an ordered mutating traversal: structural
left-to-right recursion applying the callback once per element, threading
the captured state. -/
def mapAccum {α σ : Type} (op : σ → α → σ × α) : List α → σ → List α × σ
  | [], s => ([], s)
  | x :: xs, s =>
    let r := op s x
    let rest := mapAccum op xs r.1
    (r.2 :: rest.1, rest.2)

lemma getAt_append_cons {α : Type} :
    ∀ (pre : List α) (x : α) (rest : List α) (h : pre.length < (pre ++ x :: rest).length),
      (pre ++ x :: rest).get ⟨pre.length, h⟩ = x := by
  intro pre
  induction pre with
  | nil => intro x rest h; rfl
  | cons y ys ih => intro x rest h; simpa using ih x rest (by simp)

lemma setAt_append_cons {α : Type} :
    ∀ (pre : List α) (x : α) (rest : List α) (y : α),
      (pre ++ x :: rest).set pre.length y = pre ++ y :: rest := by
  intro pre
  induction pre with
  | nil => intro x rest y; rfl
  | cons z zs ih => intro x rest y; simp [ih]

lemma traverseItemsLoop_append {σ : Type} (op : σ → SupermarketItem → σ × SupermarketItem) :
    ∀ (suf pre : List SupermarketItem) (s : σ),
      traverseItemsLoop op (pre ++ suf) pre.length s
        = (pre ++ (mapAccum op suf s).1, (mapAccum op suf s).2) := by
  intro suf
  induction suf with
  | nil =>
    intro pre s
    rw [traverseItemsLoop]
    simp [mapAccum]
  | cons x rest ih =>
    intro pre s
    rw [traverseItemsLoop]
    have hlt : pre.length < (pre ++ x :: rest).length := by simp
    simp only [dif_pos hlt, getAt_append_cons pre x rest hlt, setAt_append_cons]
    have hpre : pre.length + 1 = (pre ++ [(op s x).2]).length := by simp
    have happ : pre ++ (op s x).2 :: rest = (pre ++ [(op s x).2]) ++ rest := by simp
    rw [happ, hpre, ih (pre ++ [(op s x).2]) (op s x).1]
    simp [mapAccum]

lemma traverse_items_eq_mapAccum {σ : Type} (cart : ShoppingCart)
    (op : σ → SupermarketItem → σ × SupermarketItem) (s : σ) :
    ShoppingCart.traverse_items cart op s
      = (⟨(mapAccum op cart.item s).1⟩, (mapAccum op cart.item s).2) := by
  have := traverseItemsLoop_append op cart.item [] s
  simp only [List.nil_append, List.length_nil] at this
  simp [ShoppingCart.traverse_items, this]

lemma mapAccum_length {α σ : Type} (op : σ → α → σ × α) :
    ∀ (xs : List α) (s : σ), (mapAccum op xs s).1.length = xs.length := by
  intro xs
  induction xs with
  | nil => intro s; rfl
  | cons x xs ih => intro s; simp [mapAccum, ih]

lemma mapAccum_count {α σ : Type} (op : σ → α → σ × α) :
    ∀ (xs : List α) (n : Nat) (s : σ),
      (mapAccum (countCalls1 op) xs (n, s)).2.1 = n + xs.length := by
  intro xs
  induction xs with
  | nil => intro n s; rfl
  | cons x xs ih =>
    intro n s
    have h := ih (n + 1) (op s x).1
    simp only [mapAccum, countCalls1, List.length_cons] at *
    omega

lemma mapAccum_trace {α σ : Type} (op : σ → α → σ × α) :
    ∀ (xs : List α) (log : List α) (s : σ),
      (mapAccum (fun p x =>
          let r := op p.2 x
          ((p.1 ++ [x], r.1), r.2)) xs (log, s)).2.1 = log ++ xs := by
  intro xs
  induction xs with
  | nil => intro log s; simp [mapAccum]
  | cons x xs ih =>
    intro log s
    simp only [mapAccum, ih]
    simp

/-- Embedding of `Location` from `closure_11.rs` (`treasure: i32` carried
as `Int`; no claim exercises values near the `i32` bounds). -/
structure Location where
  name : String
  treasure : Int

/-- Embedding of `Map` from `closure_11.rs`: a borrowed slice of
locations, here the sequence of its elements. -/
structure Map where
  location : List Location

/-- Rust `usize` subtraction as it behaves in the repository's build: the
result when no underflow occurs, and `none` (the arithmetic-overflow
panic) when `b > a`. -/
def usizeSub (a b : Nat) : Option Nat :=
  if b ≤ a then some (a - b) else none

/-- Embedding of the `while current_index <= final_index` loop inside
`Map::explore` in `closure_11.rs`: the callback observes the current
element and updates only its captured state; indexing past the end of the
slice is the out-of-bounds panic, modelled as `none`. -/
def exploreLoop {σ : Type} (action : σ → Location → σ) (location : List Location)
    (final_index : Nat) : Nat → σ → Option σ :=
  fun current_index s =>
    if current_index ≤ final_index then
      match location[current_index]? with
      | some current_location =>
          exploreLoop action location final_index (current_index + 1) (action s current_location)
      | none => none
    else
      some s
termination_by current_index _ => final_index + 1 - current_index

/-- Embedding of `Map::explore` from `closure_11.rs`: first compute
`final_index = self.location.len() - 1` with `usize` subtraction (this is
where an empty slice makes the call panic), then run the index loop from
`0`.  The result is the callback's final captured state, or `none` for a
panic. -/
def Map.explore {σ : Type} (self : Map) (action : σ → Location → σ) (s : σ) : Option σ :=
  match usizeSub self.location.length 1 with
  | some final_index => exploreLoop action self.location final_index 0 s
  | none => none

lemma exploreLoop_foldl_drop {σ : Type} (action : σ → Location → σ) (locs : List Location)
    (fi : Nat) (hfi : fi + 1 = locs.length) :
    ∀ (k i : Nat) (s : σ), k = locs.length - i →
      exploreLoop action locs fi i s = some (List.foldl action s (locs.drop i)) := by
  intro k
  induction k with
  | zero =>
    intro i s hk
    have hge : locs.length ≤ i := by omega
    rw [exploreLoop, if_neg (by omega), List.drop_eq_nil_of_le hge, List.foldl_nil]
  | succ k ih =>
    intro i s hk
    have hlt : i < locs.length := by omega
    rw [exploreLoop, if_pos (by omega), List.getElem?_eq_getElem hlt,
      List.drop_eq_getElem_cons hlt, List.foldl_cons]
    exact ih (i + 1) (action s locs[i]) (by omega)

lemma explore_eq_foldl {σ : Type} (locs : List Location) (action : σ → Location → σ) (s : σ) :
    Map.explore ⟨locs⟩ action s
      = if locs.length = 0 then none else some (List.foldl action s locs) := by
  by_cases h : locs.length = 0
  · simp [Map.explore, usizeSub, h]
  · have h1 : 1 ≤ locs.length := by omega
    simp only [Map.explore, usizeSub, if_pos h1]
    rw [exploreLoop_foldl_drop action locs (locs.length - 1) (by omega)
      (locs.length - 0) 0 s (by omega)]
    simp [h]

lemma foldl_count {σ : Type} (action : σ → Location → σ) :
    ∀ (locs : List Location) (n : Nat) (s : σ),
      List.foldl (fun p l => (p.1 + 1, action p.2 l)) (n, s) locs
        = (n + locs.length, List.foldl action s locs) := by
  intro locs
  induction locs with
  | nil => intro n s; simp
  | cons l locs ih =>
    intro n s
    simp only [List.foldl_cons, ih, List.length_cons]
    have hn : n + 1 + locs.length = n + (locs.length + 1) := by omega
    rw [hn]

/-- Embedding of `working_time` from `closure_12.rs`: invoke the `FnMut()`
callback three times in sequence on its captured state. -/
def working_time {σ : Type} (duration : σ → σ) (s : σ) : σ :=
  duration (duration (duration s))

/-- Embedding of `Vault` from `closure_8_methods_accepting_closures.rs`. -/
structure Vault where
  password : String
  treasure : String

/-- Embedding of `Vault::unlock` from
`closure_8_methods_accepting_closures.rs`: call the consuming procedure
once to obtain a candidate password, compare it to the stored password by
value equality, and return the treasure wrapped in `some` on a match and
`none` otherwise; the procedure's final captured state is returned
alongside. -/
def Vault.unlock {σ : Type} (self : Vault) (procedure : σ → σ × String) (s : σ) :
    σ × Option String :=
  let r := procedure s
  if r.2 = self.password then (r.1, some self.treasure) else (r.1, none)

/-- Embedding of `Option::unwrap_or_else` as called and documented in
`closure_7_unwrap_or_else.rs`: return the contents of `some` untouched
(the fallback is not applied and its captured state is unchanged),
otherwise apply the fallback once. -/
def unwrap_or_else {σ α : Type} (self : Option α) (fallback : σ → σ × α) (s : σ) : σ × α :=
  match self with
  | some x => (s, x)
  | none => fallback s

/-- Embedding of `Result::unwrap_or_else` as called and documented in
`closure_7_unwrap_or_else.rs`: on the failure branch the error payload is
passed into the fallback. -/
def unwrap_or_else_result {σ α ε : Type} (self : Except ε α) (fallback : σ → ε → σ × α)
    (s : σ) : σ × α :=
  match self with
  | Except.ok x => (s, x)
  | Except.error e => fallback s e

/-- Embedding of `call_once` from `closure_5_fnonce.rs`: apply the
consuming callback exactly once to its captured state. -/
def call_once {σ : Type} (f : σ → σ) (s : σ) : σ :=
  f s

/-- The character buffer of the `closure_10_retain_method.rs` demo,
`"PLaY STaTION"`, viewed as a sequence of code points. -/
def game_console : List Char := "PLaY STaTION".toList

/-- The predicate closure of the `closure_10_retain_method.rs` demo: keep
every character other than `a`; push each rejected character onto the
captured sink `deleted_characters` before returning `false`. -/
def holding_char (deleted_characters : List Char) (value : Char) : List Char × Bool :=
  if value ≠ 'a' then (deleted_characters, true) else (deleted_characters ++ [value], false)

/-- Claim C7: filtering the buffer `"PLaY STaTION"` with the predicate
"not equal to `a`", where the predicate appends each rejected character
to a caller-owned sink, leaves the buffer equal to `"PLY STTION"` and the
sink equal to `"aa"`; the recorded per-character decisions show the sink
accumulates in traversal order (positions 2 and 7 are the rejections). -/
theorem retain_playstation_spec :
    (retain holding_char game_console []).1 = "PLY STTION".toList
    ∧ (retain holding_char game_console []).2 = "aa".toList
    ∧ (retainRun holding_char game_console []).1.map Prod.snd
        = [true, true, false, true, true, true, true, false, true, true, true, true]
    ∧ ((retainRun holding_char game_console []).1.filter (fun e => !e.2)).map Prod.fst
        = "aa".toList := by
  refine ⟨?_, ?_, ?_, ?_⟩ <;> decide

/-- Modelled from the spec: the states of a Consuming-tier callback
handle.  In the Rust source this state is tracked by the type system
(`FnOnce` ownership transfer, with the rejected second call left in
comments), not by runtime data, so the state machine is embedded from the
spec's words. -/
inductive ConsumeState where
  | Unused
  | Spent
deriving DecidableEq

/-- Modelled from the spec: the fatal condition raised when an
already-spent Consuming handle is invoked again. -/
inductive ConsumeFault where
  | ReuseOfConsumedCallback
deriving DecidableEq

/-- Modelled from the spec: a Consuming callback handle, a behavior
together with its spent flag. -/
structure ConsumingHandle (α : Type) where
  state : ConsumeState
  behavior : Unit → α

/-- Modelled from the spec: invoking a Consuming handle.  The single
permitted invocation moves the handle from `Unused` to `Spent`; invoking
from `Spent` is the fatal `ReuseOfConsumedCallback` condition. -/
def invoke_consuming {α : Type} (h : ConsumingHandle α) :
    Except ConsumeFault (α × ConsumingHandle α) :=
  match h.state with
  | ConsumeState.Unused => Except.ok (h.behavior (), ⟨ConsumeState.Spent, h.behavior⟩)
  | ConsumeState.Spent => Except.error ConsumeFault.ReuseOfConsumedCallback

lemma unlock_state {σ : Type} (v : Vault) (procedure : σ → σ × String) (s : σ) :
    (Vault.unlock v procedure s).1 = (procedure s).1 := by
  by_cases hc : (procedure s).2 = v.password <;> simp [Vault.unlock, hc]

/-- Claim C2: `unlock` invokes the consuming procedure exactly once (the
final captured state is that of a single application), compares its
result to the stored password by value equality, returns the treasure
wrapped in `some` exactly when they are equal and `none` otherwise; in
particular a vault with password `S` and treasure `P` yields `some P`
when the procedure returns `S` and `none` for any other returned value. -/
theorem unlock_spec {σ : Type} (v : Vault) (procedure : σ → σ × String) (w : String) (s : σ) :
    (Vault.unlock v procedure s).1 = (procedure s).1
    ∧ ((Vault.unlock v procedure s).2 = some v.treasure ↔ (procedure s).2 = v.password)
    ∧ ((Vault.unlock v procedure s).2 = none ↔ ¬ (procedure s).2 = v.password)
    ∧ (Vault.unlock v (countCalls0 procedure) (0, s)).1.1 = 1
    ∧ (Vault.unlock ⟨"S", "P"⟩ (fun t => (t, w)) s).2
        = (if w = "S" then some "P" else none) := by
  refine ⟨unlock_state v procedure s, ?_, ?_, ?_, ?_⟩
  · unfold Vault.unlock
    by_cases hc : (procedure s).2 = v.password <;> simp [hc]
  · unfold Vault.unlock
    by_cases hc : (procedure s).2 = v.password <;> simp [hc]
  · rw [unlock_state]
    rfl
  · unfold Vault.unlock
    by_cases hw : w = "S" <;> simp [hw]

/-- Claim C3: `unwrap_or_else` on a present value returns the contents
and never invokes the fallback (for every fallback, the captured state is
unchanged and the invocation count stays `0`); on an absent value it
invokes the fallback exactly once and returns its result; the `Result`
variant passes the error payload into the fallback on the failure
branch. -/
theorem unwrap_or_else_spec {σ α ε : Type} (x : α) (e : ε) (fallback : σ → σ × α)
    (fallbackR : σ → ε → σ × α) (s : σ) :
    unwrap_or_else (some x) fallback s = (s, x)
    ∧ unwrap_or_else (none : Option α) fallback s = fallback s
    ∧ unwrap_or_else_result (Except.ok x) fallbackR s = (s, x)
    ∧ unwrap_or_else_result (Except.error e) fallbackR s = fallbackR s e
    ∧ (unwrap_or_else (some x) (countCalls0 fallback) (0, s)).1.1 = 0
    ∧ (unwrap_or_else (none : Option α) (countCalls0 fallback) (0, s)).1.1 = 1 :=
  ⟨rfl, rfl, rfl, rfl, rfl, rfl⟩

lemma foldl_trace {α : Type} :
    ∀ (xs log : List α), List.foldl (fun acc x => acc ++ [x]) log xs = log ++ xs := by
  intro xs
  induction xs with
  | nil => intro log; simp
  | cons x xs ih => intro log; simp [ih]

/-- Claim C4: the traversal applies the callback exactly `len(S)` times,
once per element, in ascending index order.  `traverse_items` coincides
with the structural left-to-right map-accumulate (so no element is
skipped or visited twice and the state is threaded in index order),
preserves length, logs exactly the input sequence as its invocation
trace, and an instrumented counter ends at `len(S)`; `explore` coincides
with the left fold over the slice for every non-empty slice, with the
same trace and count — but on the empty slice `explore` panics (`none`)
instead of performing zero invocations, which is the C5 defect. -/
theorem traversal_order_spec {σ τ : Type} (op : σ → SupermarketItem → σ × SupermarketItem)
    (cart : ShoppingCart) (s : σ) (action : τ → Location → τ) (locs : List Location) (t : τ) :
    ShoppingCart.traverse_items cart op s
        = (⟨(mapAccum op cart.item s).1⟩, (mapAccum op cart.item s).2)
    ∧ (ShoppingCart.traverse_items cart op s).1.item.length = cart.item.length
    ∧ (ShoppingCart.traverse_items cart
        (fun p x =>
          let r := op p.2 x
          ((p.1 ++ [x], r.1), r.2)) ([], s)).2.1 = cart.item
    ∧ (ShoppingCart.traverse_items cart (countCalls1 op) (0, s)).2.1 = cart.item.length
    ∧ Map.explore ⟨locs⟩ action t
        = (if locs.length = 0 then none else some (List.foldl action t locs))
    ∧ Map.explore ⟨locs⟩ (fun log l => log ++ [l]) ([] : List Location)
        = (if locs.length = 0 then none else some locs)
    ∧ Map.explore ⟨locs⟩ (fun p l => (p.1 + 1, action p.2 l)) (0, t)
        = (if locs.length = 0 then none else some (locs.length, List.foldl action t locs))
    ∧ Map.explore ⟨[]⟩ action t = none := by
  refine ⟨traverse_items_eq_mapAccum cart op s, ?_, ?_, ?_,
    explore_eq_foldl locs action t, ?_, ?_, rfl⟩
  · rw [traverse_items_eq_mapAccum]
    exact mapAccum_length op cart.item s
  · rw [traverse_items_eq_mapAccum]
    exact mapAccum_trace op cart.item [] s
  · rw [traverse_items_eq_mapAccum]
    simpa using mapAccum_count op cart.item 0 s
  · rw [explore_eq_foldl, foldl_trace]
    simp
  · rw [explore_eq_foldl, foldl_count]
    simp

/-- Claim C5 (the code deviates): on the empty sequence,
`traverse_items` performs zero callback invocations and returns the empty
cart and the untouched captured state, as the spec requires — but
`Map::explore` computes `len() - 1` with `usize` subtraction before its
loop, which underflows on the empty slice, so the call panics (`none`)
instead of returning normally. -/
theorem empty_input_spec {σ τ : Type} (op : σ → SupermarketItem → σ × SupermarketItem)
    (s : σ) (action : τ → Location → τ) (t : τ) :
    ShoppingCart.traverse_items ⟨[]⟩ op s = (⟨[]⟩, s)
    ∧ (ShoppingCart.traverse_items ⟨[]⟩ (countCalls1 op) (0, s)).2.1 = 0
    ∧ Map.explore ⟨[]⟩ action t = none
    ∧ usizeSub (List.length ([] : List Location)) 1 = none := by
  refine ⟨?_, ?_, rfl, rfl⟩
  · rw [traverse_items_eq_mapAccum]
    rfl
  · rw [traverse_items_eq_mapAccum]
    rfl

/-- Claim C6: a Consuming-tier handle follows the `{Unused, Spent}` state
machine — the single permitted invocation moves `Unused` to `Spent`,
invoking a `Spent` handle is the `ReuseOfConsumedCallback` condition (so
`Spent` is terminal and a second invocation after a successful one is
observably prevented); and the embedded consuming-callback operations
invoke their callback at most once: `unlock` and `call_once` exactly
once, the lazy fallback zero times on a present value and once on an
absent one. -/
theorem consuming_once_spec {σ α : Type} (f g : Unit → α) (v : Vault)
    (proc : σ → σ × String) (fb : σ → σ × α) (x : α) (q : σ → σ) (s : σ) :
    invoke_consuming ⟨ConsumeState.Unused, f⟩
        = Except.ok (f (), ⟨ConsumeState.Spent, f⟩)
    ∧ invoke_consuming ⟨ConsumeState.Spent, g⟩
        = Except.error ConsumeFault.ReuseOfConsumedCallback
    ∧ (invoke_consuming ⟨ConsumeState.Unused, f⟩).bind (fun r => invoke_consuming r.2)
        = Except.error ConsumeFault.ReuseOfConsumedCallback
    ∧ (Vault.unlock v (countCalls0 proc) (0, s)).1.1 = 1
    ∧ (unwrap_or_else (some x) (countCalls0 fb) (0, s)).1.1 = 0
    ∧ (unwrap_or_else (none : Option α) (countCalls0 fb) (0, s)).1.1 = 1
    ∧ (call_once (countCallsUnit q) (0, s)).1 = 1 := by
  refine ⟨rfl, rfl, rfl, ?_, rfl, rfl, rfl⟩
  rw [unlock_state]
  rfl

lemma foldl_overwrite {α β : Type} (g : α → β) :
    ∀ (xs : List α) (a : β),
      List.foldl (fun _ x => g x) a xs = ((xs.getLast?).map g).getD a := by
  intro xs
  induction xs with
  | nil => intro a; rfl
  | cons x xs ih =>
    intro a
    cases xs with
    | nil => rfl
    | cons y ys =>
      rw [List.foldl_cons, ih (g x), List.getLast?_cons_cons]
      cases hq : (y :: ys).getLast? with
      | none => exact absurd (List.getLast?_eq_none_iff.mp hq) (by simp)
      | some z => simp [hq]

lemma mapAccum_state_foldl {α σ : Type} (op : σ → α → σ × α) :
    ∀ (xs : List α) (s : σ),
      (mapAccum op xs s).2 = List.foldl (fun a x => (op a x).1) s xs := by
  intro xs
  induction xs with
  | nil => intro s; rfl
  | cons x xs ih => intro s; simp [mapAccum, ih]

lemma foldl_add_sum (proj : Location → Int) :
    ∀ (locs : List Location) (a : Int),
      List.foldl (fun a l => a + proj l) a locs = a + (locs.map proj).sum := by
  intro locs
  induction locs with
  | nil => intro a; simp
  | cons l locs ih =>
    intro a
    rw [List.foldl_cons, ih, List.map_cons, List.sum_cons]
    omega

/-- Claim C8: the traversal contract fixes only invocation count and
order, not what the callback does with its access — an overwrite-per-call
callback leaves the accumulator equal to the last element's value, an
accumulate-per-call callback leaves it equal to the sum of all elements,
both through `explore` and through `traverse_items`; the `closure_11.rs`
demo values give `10` (overwrite) and would give `15` (accumulate). -/
theorem overwrite_vs_accumulate_spec (locs : List Location) (a0 : Int)
    (items : List SupermarketItem) (p0 : Float) :
    Map.explore ⟨locs⟩ (fun _ l => l.treasure) a0
        = (if locs.length = 0 then none else (locs.getLast?).map Location.treasure)
    ∧ Map.explore ⟨locs⟩ (fun a l => a + l.treasure) 0
        = (if locs.length = 0 then none else some ((locs.map Location.treasure).sum))
    ∧ (ShoppingCart.traverse_items ⟨items⟩ (fun _ it => (it.price, it)) p0).2
        = ((items.getLast?).map SupermarketItem.price).getD p0
    ∧ (ShoppingCart.traverse_items ⟨items⟩ (fun a it => (a + it.price, it)) p0).2
        = List.foldl (fun a it => a + it.price) p0 items
    ∧ Map.explore ⟨[⟨"Abu Dhabi", 5⟩, ⟨"Al ain", 10⟩]⟩ (fun _ l => l.treasure) 0 = some 10
    ∧ Map.explore ⟨[⟨"Abu Dhabi", 5⟩, ⟨"Al ain", 10⟩]⟩ (fun a l => a + l.treasure) 0
        = some 15 := by
  refine ⟨?_, ?_, ?_, ?_, ?_, ?_⟩
  · rw [explore_eq_foldl, foldl_overwrite]
    by_cases h : locs.length = 0
    · simp [h]
    · have hne : locs ≠ [] := by
        intro hc
        rw [hc] at h
        exact h rfl
      cases hq : locs.getLast? with
      | none => exact absurd (List.getLast?_eq_none_iff.mp hq) hne
      | some l => simp [h, hq]
  · rw [explore_eq_foldl, foldl_add_sum]
    simp
  · rw [traverse_items_eq_mapAccum]
    simp only [mapAccum_state_foldl]
    exact foldl_overwrite SupermarketItem.price items p0
  · rw [traverse_items_eq_mapAccum]
    simp only [mapAccum_state_foldl]
  · rw [explore_eq_foldl]
    decide
  · rw [explore_eq_foldl]
    decide

/-- Claim C9: `checkout` takes the whole cart by value and hands it,
unchanged, to its consuming callback, which it applies exactly once: the
result is exactly one application of the callback to the cart, an
instrumented counter ends at `1`, and the invocation trace is exactly
`[cart]`. -/
theorem checkout_spec {σ : Type} (cart : ShoppingCart) (operation : σ → ShoppingCart → σ)
    (s : σ) :
    ShoppingCart.checkout cart operation s = operation s cart
    ∧ ShoppingCart.checkout cart (fun p c => (p.1 + 1, operation p.2 c)) (0, s)
        = (1, operation s cart)
    ∧ ShoppingCart.checkout cart (fun (log : List ShoppingCart) c => log ++ [c]) [] = [cart] :=
  ⟨rfl, rfl, rfl⟩

/-- Fuel-indexed version of the `traverse_items` index loop, used to
state its termination bound; `none` means the fuel ran out before the
loop finished. -/
def traverseItemsLoopFuel {σ : Type} (operation : σ → SupermarketItem → σ × SupermarketItem) :
    Nat → List SupermarketItem → Nat → σ → Option (List SupermarketItem × σ)
  | 0, items, start_index, s =>
      if start_index < items.length then none else some (items, s)
  | fuel + 1, items, start_index, s =>
      if h : start_index < items.length then
        let r := operation s (items.get ⟨start_index, h⟩)
        traverseItemsLoopFuel operation fuel (items.set start_index r.2) (start_index + 1) r.1
      else some (items, s)

/-- Fuel-indexed version of the `explore` index loop, used to state its
termination bound; the outer `none` means the fuel ran out, the inner
`none` is the loop's own out-of-bounds panic. -/
def exploreLoopFuel {σ : Type} (action : σ → Location → σ) (location : List Location)
    (final_index : Nat) : Nat → Nat → σ → Option (Option σ)
  | 0, current_index, s =>
      if current_index ≤ final_index then none else some (some s)
  | fuel + 1, current_index, s =>
      if current_index ≤ final_index then
        match location[current_index]? with
        | some current_location =>
            exploreLoopFuel action location final_index fuel (current_index + 1)
              (action s current_location)
        | none => some none
      else some (some s)

lemma traverseItemsLoopFuel_spec {σ : Type} (op : σ → SupermarketItem → σ × SupermarketItem) :
    ∀ (k : Nat) (items : List SupermarketItem) (i : Nat) (s : σ), k = items.length - i →
      traverseItemsLoopFuel op k items i s = some (traverseItemsLoop op items i s) := by
  intro k
  induction k with
  | zero =>
    intro items i s hk
    have hge : ¬ i < items.length := by omega
    rw [traverseItemsLoopFuel, if_neg hge, traverseItemsLoop, dif_neg hge]
  | succ k ih =>
    intro items i s hk
    have hlt : i < items.length := by omega
    rw [traverseItemsLoopFuel, dif_pos hlt, traverseItemsLoop, dif_pos hlt]
    exact ih (items.set i (op s (items.get ⟨i, hlt⟩)).2) (i + 1)
      (op s (items.get ⟨i, hlt⟩)).1 (by simp only [List.length_set]; omega)

lemma exploreLoopFuel_spec {σ : Type} (action : σ → Location → σ) (locs : List Location)
    (fi : Nat) :
    ∀ (k i : Nat) (s : σ), k = fi + 1 - i →
      exploreLoopFuel action locs fi k i s = some (exploreLoop action locs fi i s) := by
  intro k
  induction k with
  | zero =>
    intro i s hk
    have hgt : ¬ i ≤ fi := by omega
    rw [exploreLoopFuel, if_neg hgt, exploreLoop, if_neg hgt]
  | succ k ih =>
    intro i s hk
    have hle : i ≤ fi := by omega
    rw [exploreLoopFuel, if_pos hle, exploreLoop, if_pos hle]
    cases hq : locs[i]? with
    | none => rfl
    | some loc => exact ih (i + 1) (action s loc) (by omega)

/-- Claim C10: every core operation terminates on every finite input —
the `traverse_items` loop finishes within exactly `len - index` remaining
iterations of fuel (the distance from the current index to the length),
the `explore` loop within `final_index + 1 - index` iterations, and
`working_time` returns after exactly three callback invocations. -/
theorem termination_spec {σ τ ρ : Type} (op : σ → SupermarketItem → σ × SupermarketItem)
    (items : List SupermarketItem) (i : Nat) (s : σ)
    (action : τ → Location → τ) (locs : List Location) (fi j : Nat) (t : τ)
    (f : ρ → ρ) (r : ρ) :
    traverseItemsLoopFuel op (items.length - i) items i s
        = some (traverseItemsLoop op items i s)
    ∧ exploreLoopFuel action locs fi (fi + 1 - j) j t = some (exploreLoop action locs fi j t)
    ∧ working_time f r = f (f (f r))
    ∧ working_time (countCallsUnit f) (0, r) = (3, f (f (f r))) :=
  ⟨traverseItemsLoopFuel_spec op (items.length - i) items i s rfl,
   exploreLoopFuel_spec action locs fi (fi + 1 - j) j t rfl, rfl, rfl⟩
